import Mathlib

/-!
Verification development for a minimal terminal agent written in Go
(packages `main`, `agent`, `tools`).  The agent relays user text to a
model endpoint, dispatches requested tool calls (read_file, list_files,
edit_file, ripgrep_search) and feeds the results back into the
conversation.  File contents are modelled as `List Char` (one `Char`
per byte), paths and diagnostic messages as `String`, and the external
world (file system, inference endpoint, stdin, child process) as
explicit parameters.
-/

namespace Agent

/-- Raw structured tool input (Go `json.RawMessage`, a byte slice). -/
abbrev Raw := String

/-! ### Go `strings.Replace(s, old, new, 1)`

`EditFile` (tools.go, `strings.Replace(contentStr, OldStr, NewStr, 1)`)
replaces the first occurrence of `old` in `s` by `new`.  The Go
implementation first returns `s` unchanged when `old == new`, returns
`s` unchanged when `old` does not occur, and an empty `old` matches at
position zero. -/

/-- `startsWith old s` : `old` is a leading segment of `s`. -/
def startsWith : List Char → List Char → Bool
  | [], _ => true
  | _ :: _, [] => false
  | o :: os, c :: cs => o == c && startsWith os cs

/-- Replace the first occurrence of `old` in `s` by `new`; identity when
`old` does not occur.  An empty `old` matches at position zero. -/
def replaceFirst (old new : List Char) : List Char → List Char
  | [] => if startsWith old [] then new ++ ([] : List Char).drop old.length else []
  | c :: rest =>
    if startsWith old (c :: rest) then new ++ (c :: rest).drop old.length
    else c :: replaceFirst old new rest

/-- Go `strings.Replace(s, old, new, 1)`: the `old == new` guard comes
first in the Go source, then the first occurrence (if any) is replaced. -/
def goReplaceOne (s old new : List Char) : List Char :=
  if old = new then s else replaceFirst old new s

/-! ### File-system model

A flat map from path to byte content.  `read` is lookup, `write`
overwrites (`os.ReadFile` / `os.WriteFile`). -/

/-- In-memory file system: association list from path to content;
`read` takes the first binding for a path. -/
def FS := List (String × List Char)

/-- `os.ReadFile`: `none` models a read error (missing file, etc.). -/
def FS.read (fs : FS) (path : String) : Option (List Char) :=
  match fs with
  | [] => none
  | (p, c) :: rest => if p = path then some c else FS.read rest path

/-- `os.WriteFile`: overwrite the content stored at `path`. -/
def FS.write (fs : FS) (path : String) (content : List Char) : FS :=
  (path, content) :: fs

/-- Failure message of `EditFile` when the replacement is a no-op. -/
def notFoundMsg (old : List Char) (path : String) : String :=
  "string '" ++ String.mk old ++ "' not found in file '" ++ path ++ "'"

/-- `EditFile` body (tools.go lines 125-141), after input decoding:
read the file, perform `strings.Replace(content, old, new, 1)`; if the
result equals the original content, fail without writing; otherwise
write the new content back.  Returns the textual result (or error
message) together with the resulting file system. -/
def editFile (fs : FS) (path : String) (old new : List Char) :
    Except String String × FS :=
  match fs.read path with
  | none => (.error ("failed to read file '" ++ path ++ "' for editing"), fs)
  | some content =>
    let newContent := goReplaceOne content old new
    if newContent = content then
      (.error (notFoundMsg old path), fs)
    else
      (.ok "File edited successfully", fs.write path newContent)

/-! ### `RipGrepSearch` (tools.go lines 161-207)

The tool shells out to `rg`; only the handling of the process outcome
is program logic.  `cmd.Output()` yields either captured stdout (exit
status zero), an exit error with a non-zero code and captured stderr,
or a start failure. -/

/-- Outcome of running the external search process (`cmd.Output()`). -/
inductive CmdOutcome where
  | output (out : String)
  | exitErr (code : Nat) (stderr : String)
  | startErr (msg : String)
deriving DecidableEq

/-- `RipGrepSearch` outcome handling: exit code 1 is "no matches"
(success); any other exit error is a failure carrying the stderr text
when non-empty; empty captured stdout is also "no matches". -/
def ripGrepHandle : CmdOutcome → Except String String
  | .output out => if out.length = 0 then .ok "No matches found." else .ok out
  | .exitErr code stderr =>
    if code = 1 then .ok "No matches found."
    else if stderr ≠ "" then
      .error ("ripgrep failed with exit code " ++ toString code ++ ": " ++ stderr)
    else
      .error ("ripgrep failed with exit code " ++ toString code)
  | .startErr msg => .error ("failed to execute ripgrep: " ++ msg)

/-! ### `ListFiles` (tools.go lines 57-99)

`filepath.Walk` visits the root first and then each directory's
entries in lexical (name-sorted) order, recursively.  The visitor
skips the root (`relPath == "."`), records files by their relative
path and directories by their relative path with `"/"` appended.
Directory trees are modelled as finite trees. -/

/-- A file-system tree: a file or a directory with children. -/
inductive FTree where
  | file (name : String)
  | dir (name : String) (children : List FTree)

/-- The entry name of a tree node. -/
def FTree.name : FTree → String
  | .file n => n
  | .dir n _ => n

/-- Insertion step of the lexical sort `filepath.Walk` applies to each
directory's entries. -/
def insertByName (t : FTree) : List FTree → List FTree
  | [] => [t]
  | u :: us => if u.name < t.name then u :: insertByName t us else t :: u :: us

/-- Sort a directory's entries by name (Go `sort.Strings` inside
`readDirNames`). -/
def sortByName : List FTree → List FTree
  | [] => []
  | t :: ts => insertByName t (sortByName ts)

theorem sizeOf_insertByName (t : FTree) (ts : List FTree) :
    sizeOf (insertByName t ts) = 1 + sizeOf t + sizeOf ts := by
  induction ts with
  | nil => simp [insertByName]
  | cons u us ih =>
    simp only [insertByName]
    split <;> simp [ih] <;> omega

theorem sizeOf_sortByName (ts : List FTree) :
    sizeOf (sortByName ts) = sizeOf ts := by
  induction ts with
  | nil => rfl
  | cons t ts ih => simp [sortByName, sizeOf_insertByName, ih]

mutual

/-- Entries produced by `filepath.Walk` for one node of the tree,
where `pre` is the relative path of the node's parent directory
(already ending in `"/"` when non-empty): a file contributes its
relative path, a directory contributes its relative path with `"/"`
appended followed by its sorted children's entries. -/
def walkTree (pre : String) : FTree → List String
  | .file n => [pre ++ n]
  | .dir n cs => (pre ++ n ++ "/") :: walkList (pre ++ n ++ "/") (sortByName cs)
termination_by t => sizeOf t
decreasing_by simp [sizeOf_sortByName] <;> omega

/-- Entries of a list of sibling nodes, in order. -/
def walkList (pre : String) : List FTree → List String
  | [] => []
  | t :: ts => walkTree pre t ++ walkList pre ts
termination_by ts => sizeOf ts
decreasing_by all_goals simp <;> omega

end

/-- `ListFiles` body after decoding, on a resolved root: the walk skips
the root itself (`relPath == "."`) and returns the collected entries
(Go then JSON-marshals this list into the textual tool result).
Walking a plain file visits only the root, which is skipped. -/
def listFiles : FTree → List String
  | .file _ => []
  | .dir _ cs => walkList "" (sortByName cs)

mutual

/-- Specification-side view of the walk: the recursively reachable
proper descendants of a node, each as (relative path, is-directory). -/
def reachTree (pre : String) : FTree → List (String × Bool)
  | .file n => [(pre ++ n, false)]
  | .dir n cs => (pre ++ n, true) :: reachList (pre ++ n ++ "/") (sortByName cs)
termination_by t => sizeOf t
decreasing_by simp [sizeOf_sortByName] <;> omega

/-- Reachable entries of a list of sibling nodes, in order. -/
def reachList (pre : String) : List FTree → List (String × Bool)
  | [] => []
  | t :: ts => reachTree pre t ++ reachList pre ts
termination_by ts => sizeOf ts
decreasing_by all_goals simp <;> omega

end

/-- Render one reachable entry as `ListFiles` names it: directories get
a trailing `"/"`, files do not. -/
def markEntry (e : String × Bool) : String :=
  if e.2 then e.1 ++ "/" else e.1

/-! ### Tool registry and dispatch (agent.go `Agent.executeTool`) -/

/-- A registered tool: unique name, description, and the function run
on the raw structured input (the JSON input schema is presentation
data for the model and carries no program logic). -/
structure ToolDefinition where
  name : String
  description : String
  fn : Raw → Except String String

/-- A tool-result content block (`anthropic.NewToolResultBlock`). -/
structure ToolResultBlock where
  id : String
  text : String
  isError : Bool
deriving DecidableEq

/-- A content block of a model response: text, or a tool-use request
with call id, tool name and raw input. -/
inductive ContentBlock where
  | text (s : String)
  | toolUse (id name : String) (input : Raw)
deriving DecidableEq

/-- A content block of a user-role message: raw text or a tool result. -/
inductive UserBlock where
  | text (s : String)
  | toolResult (r : ToolResultBlock)
deriving DecidableEq

/-- A conversation message: user-role (text or tool results) or
assistant-role (a model response's content blocks). -/
inductive Message where
  | user (blocks : List UserBlock)
  | assistant (blocks : List ContentBlock)
deriving DecidableEq

/-- `Agent.executeTool` (agent.go lines 121-143): linear scan of the
registry for the first tool of the requested name; "tool not found" as
a failed block when absent; otherwise the tool's function runs and an
error becomes a failed block, a success a non-failed block. -/
def executeTool (tools : List ToolDefinition) (id name : String)
    (input : Raw) : ToolResultBlock :=
  match tools.find? (fun t => t.name == name) with
  | none => ⟨id, "tool not found", true⟩
  | some td =>
    match td.fn input with
    | .error e => ⟨id, e, true⟩
    | .ok r => ⟨id, r, false⟩

/-- The tool-use requests of a model response, in order of appearance
(call id, tool name, raw input). -/
def toolUses (blocks : List ContentBlock) : List (String × String × Raw) :=
  blocks.filterMap fun b =>
    match b with
    | .text _ => none
    | .toolUse id name input => some (id, name, input)

/-- The tool-results batch collected by one pass of `Agent.Run` over a
model response's content blocks: text blocks are only displayed,
tool-use blocks are dispatched in order of appearance. -/
def collectToolResults (tools : List ToolDefinition)
    (blocks : List ContentBlock) : List ToolResultBlock :=
  blocks.filterMap fun b =>
    match b with
    | .text _ => none
    | .toolUse id name input => some (executeTool tools id name input)

/-! ### The turn loop (agent.go `Agent.Run`)

The loop body after the optional user-input read: run inference on the
current conversation, append the model message, dispatch the tool-use
blocks, and either return to awaiting user input (no tool results) or
append the results as one user message and re-enter inference.  The
remote endpoint is modelled as a deterministic oracle from the
conversation to the model response's blocks (or a transport error). -/

/-- One inference phase of `Agent.Run`: call the oracle, append the
assistant message, dispatch tool-use blocks; result is the grown
conversation and the next `readUserInput` flag, or the fatal error
`Run` returns on an inference failure. -/
def stepInference (tools : List ToolDefinition)
    (infer : List Message → Except String (List ContentBlock))
    (conv : List Message) : Except String (List Message × Bool) :=
  match infer conv with
  | .error e => .error ("error running inference: " ++ e)
  | .ok blocks =>
    let conv' := conv ++ [Message.assistant blocks]
    let results := collectToolResults tools blocks
    if results.isEmpty then .ok (conv', true)
    else .ok (conv' ++ [Message.user (results.map UserBlock.toolResult)], false)

/-- `Agent.Run`: the turn loop, with the pending user input lines as an
explicit list (`getUserMessage` consumes them; an empty list is
end-of-input) and fuel bounding the number of iterations (`none` =
fuel exhausted).  On end-of-input during the awaiting-user-input phase
the loop breaks and `Run` returns without error; the final conversation
(the loop's local state) is returned for observability. -/
def run (tools : List ToolDefinition)
    (infer : List Message → Except String (List ContentBlock)) :
    Nat → List String → List Message → Bool →
    Option (Except String (List Message))
  | 0, _, _, _ => none
  | fuel + 1, inputs, conv, readUserInput =>
    if readUserInput then
      match inputs with
      | [] => some (.ok conv)
      | input :: rest =>
        match stepInference tools infer (conv ++ [Message.user [UserBlock.text input]]) with
        | .error e => some (.error e)
        | .ok (conv', flag) => run tools infer fuel rest conv' flag
    else
      match stepInference tools infer conv with
      | .error e => some (.error e)
      | .ok (conv', flag) => run tools infer fuel inputs conv' flag

/-! ### The shape shared by the four tool functions

Each tool function first `json.Unmarshal`s the raw input into its
input struct, short-circuiting with a descriptive error on a decode
failure, and only then runs its body. -/

/-- Decode-then-body shape of every tool function in tools.go:
`decodeMsg` is the tool's "invalid input format for ...: " prefix. -/
def mkToolFn {I : Type} (decodeMsg : String) (dec : Raw → Except String I)
    (body : I → Except String String) (input : Raw) : Except String String :=
  match dec input with
  | .error e => .error (decodeMsg ++ e)
  | .ok i => body i

/-- Input struct of the read_file tool. -/
structure ReadFileInput where
  path : String

/-- `ReadFile` (tools.go lines 29-41): decode the input, read the file,
return its contents as text; a read failure is an error naming the
path. -/
def ReadFileFn (dec : Raw → Except String ReadFileInput) (fs : FS) :
    Raw → Except String String :=
  mkToolFn "invalid input format for read_file: " dec fun i =>
    match fs.read i.path with
    | none => .error ("failed to read file '" ++ i.path ++ "'")
    | some c => .ok (String.mk c)

/-! ### Helper lemmas about `startsWith` and `replaceFirst` -/

theorem startsWith_nil (s : List Char) : startsWith [] s = true := by
  cases s <;> rfl

theorem startsWith_append_self (old t : List Char) :
    startsWith old (old ++ t) = true := by
  induction old with
  | nil => exact startsWith_nil t
  | cons o os ih => simp [startsWith, ih]

theorem startsWith_cons_false {old : List Char} {c : Char} {rest : List Char}
    (h : ¬ startsWith old (c :: rest) = true) :
    replaceFirst old new (c :: rest) = c :: replaceFirst old new rest := by
  simp [replaceFirst, h]

theorem replaceFirst_of_startsWith {old : List Char} {s : List Char}
    (h : startsWith old s = true) (new : List Char) :
    replaceFirst old new s = new ++ s.drop old.length := by
  cases s <;> simp [replaceFirst, h]

/-- Main characterization of `replaceFirst`: when the first occurrence
of `old` in `s` is at index `i`, the replacement splices `new` in at
that index. -/
theorem replaceFirst_at (old new : List Char) :
    ∀ (i : Nat) (s : List Char),
      startsWith old (s.drop i) = true →
      (∀ j, j < i → ¬ startsWith old (s.drop j) = true) →
      replaceFirst old new s = s.take i ++ new ++ s.drop (i + old.length)
  | 0, s, h, _ => by
    simpa using replaceFirst_of_startsWith h new
  | i + 1, [], h, hmin => by
    simp only [List.drop_nil] at h
    exact absurd (by cases old with
      | nil => simpa using startsWith_nil ([] : List Char)
      | cons o os => simp [startsWith] at h) (hmin 0 (Nat.succ_pos i))
  | i + 1, c :: rest, h, hmin => by
    have h0 : ¬ startsWith old ((c :: rest).drop 0) = true :=
      hmin 0 (Nat.succ_pos i)
    simp only [List.drop_zero] at h0
    rw [startsWith_cons_false h0]
    have hrec := replaceFirst_at old new i rest
      (by simpa using h)
      (fun j hj => by
        have := hmin (j + 1) (Nat.succ_lt_succ hj)
        simpa using this)
    rw [hrec]
    simp [List.take_succ_cons, List.drop_succ_cons, Nat.add_right_comm i 1 old.length]

/-! ### EditFile theorems -/

/-- C3: if the single replacement leaves the content identical (the
search text is absent), `edit_file` fails and performs no write: the
resulting file system is the original one. -/
theorem editFile_noop_fails (fs : FS) (path : String)
    (old new content : List Char)
    (hread : fs.read path = some content)
    (hid : goReplaceOne content old new = content) :
    editFile fs path old new = (.error (notFoundMsg old path), fs) := by
  simp [editFile, hread, hid]

theorem editFile_noop_fails_witness :
    FS.read [("f.txt", ['a', 'b'])] "f.txt" = some ['a', 'b'] ∧
    goReplaceOne ['a', 'b'] ['x'] ['y'] = ['a', 'b'] ∧
    editFile [("f.txt", ['a', 'b'])] "f.txt" ['x'] ['y'] =
      (.error (notFoundMsg ['x'] "f.txt"), [("f.txt", ['a', 'b'])]) :=
  ⟨by decide, by decide,
    editFile_noop_fails [("f.txt", ['a', 'b'])] "f.txt" ['x'] ['y']
      ['a', 'b'] (by decide) (by decide)⟩

/-- C9: when `old` occurs in the file but equals `new`, the Go
`strings.Replace` guard returns the content unchanged, so `edit_file`
reports the string as not found and leaves the file system unchanged. -/
theorem editFile_old_eq_new_fails (fs : FS) (path : String)
    (old content : List Char)
    (hread : fs.read path = some content)
    (hocc : ∃ i, startsWith old (content.drop i) = true) :
    editFile fs path old old = (.error (notFoundMsg old path), fs) := by
  have hid : goReplaceOne content old old = content := by
    simp [goReplaceOne]
  simp [editFile, hread, hid]

theorem editFile_old_eq_new_fails_witness :
    FS.read [("f.txt", ['a', 'b'])] "f.txt" = some ['a', 'b'] ∧
    startsWith ['b'] (List.drop 1 ['a', 'b']) = true ∧
    editFile [("f.txt", ['a', 'b'])] "f.txt" ['b'] ['b'] =
      (.error (notFoundMsg ['b'] "f.txt"), [("f.txt", ['a', 'b'])]) :=
  ⟨by decide, by decide,
    editFile_old_eq_new_fails [("f.txt", ['a', 'b'])] "f.txt" ['b']
      ['a', 'b'] (by decide) ⟨1, by decide⟩⟩

/-- C10: with an empty search string and a non-empty replacement, the
empty string matches at position zero, so `edit_file` succeeds and the
stored content becomes `new` prepended to the original content. -/
theorem editFile_empty_old (fs : FS) (path : String)
    (new content : List Char)
    (hread : fs.read path = some content)
    (hnew : new ≠ []) :
    (editFile fs path [] new).1 = .ok "File edited successfully" ∧
    ((editFile fs path [] new).2).read path = some (new ++ content) := by
  have hrepl : goReplaceOne content [] new = new ++ content := by
    have : ¬ ([] : List Char) = new := fun h => hnew h.symm
    simp [goReplaceOne, this, replaceFirst_of_startsWith (startsWith_nil content)]
  have hne : new ++ content ≠ content := by
    intro h
    have := congrArg List.length h
    simp at this
    exact hnew this
  constructor <;> simp [editFile, hread, hrepl, hne, FS.write, FS.read]

theorem editFile_empty_old_witness :
    FS.read [("f.txt", ['a', 'b'])] "f.txt" = some ['a', 'b'] ∧
    (['x'] : List Char) ≠ [] ∧
    (editFile [("f.txt", ['a', 'b'])] "f.txt" [] ['x']).1 =
      .ok "File edited successfully" ∧
    ((editFile [("f.txt", ['a', 'b'])] "f.txt" [] ['x']).2).read "f.txt" =
      some ['x', 'a', 'b'] :=
  ⟨by decide, by decide,
    editFile_empty_old [("f.txt", ['a', 'b'])] "f.txt" ['x'] ['a', 'b']
      (by decide) (by decide)⟩

/-- C4: when the file content has exactly one occurrence of `old` (at
index `p.length`, with `content = p ++ old ++ s`) and the replacement
changes the content, `edit_file` succeeds and the stored content is the
original with that single occurrence replaced by `new` and no other
bytes altered (only the first match is replaced). -/
theorem editFile_unique_occurrence (fs : FS) (path : String)
    (old new p s content : List Char)
    (hread : fs.read path = some content)
    (hc : content = p ++ old ++ s)
    (huniq : ∀ j, startsWith old (content.drop j) = true → j = p.length)
    (hchange : goReplaceOne content old new ≠ content) :
    (editFile fs path old new).1 = .ok "File edited successfully" ∧
    ((editFile fs path old new).2).read path = some (p ++ new ++ s) := by
  have hne : old ≠ new := by
    intro h
    exact hchange (by simp [goReplaceOne, h])
  have hocc : startsWith old (content.drop p.length) = true := by
    rw [hc, List.append_assoc, List.drop_left]
    exact startsWith_append_self old s
  have hmin : ∀ j, j < p.length → ¬ startsWith old (content.drop j) = true :=
    fun j hj h => absurd (huniq j h) (Nat.ne_of_lt hj)
  have htake : content.take p.length = p := by
    rw [hc, List.append_assoc, List.take_left]
  have hdrop : content.drop (p.length + old.length) = s := by
    rw [hc, ← List.length_append, List.drop_left]
  have hgo : goReplaceOne content old new = p ++ new ++ s := by
    rw [goReplaceOne, if_neg hne,
      replaceFirst_at old new p.length content hocc hmin, htake, hdrop]
  rw [hgo] at hchange
  have hchange' : p ++ (new ++ s) ≠ content := by
    rw [← List.append_assoc]
    exact hchange
  constructor <;> simp [editFile, hread, hgo, hchange', FS.write, FS.read]

theorem editFile_unique_occurrence_witness :
    (editFile [("f.txt", ['x', 'a', 'y'])] "f.txt" ['a'] ['b', 'b']).1 =
      .ok "File edited successfully" ∧
    ((editFile [("f.txt", ['x', 'a', 'y'])] "f.txt" ['a'] ['b', 'b']).2).read
      "f.txt" = some (['x'] ++ ['b', 'b'] ++ ['y']) :=
  editFile_unique_occurrence [("f.txt", ['x', 'a', 'y'])] "f.txt"
    ['a'] ['b', 'b'] ['x'] ['y'] ['x', 'a', 'y'] (by decide) (by decide)
    (fun j h => by
      match j with
      | 0 => exact absurd h (by decide)
      | 1 => decide
      | j + 2 =>
        have hd : List.drop (j + 2) ['x', 'a', 'y'] = List.drop j ['y'] := rfl
        rw [hd] at h
        match j with
        | 0 => exact absurd h (by decide)
        | j + 1 =>
          rw [List.drop_of_length_le (by simp)] at h
          exact absurd h (by decide))
    (by decide)

/-! ### RipGrepSearch theorems -/

/-- C2: exit code 1 of the external search process is reported as the
successful "No matches found." result; any other non-zero exit code is
a failure whose message carries the process's stderr output when that
output is non-empty (and just the exit code otherwise). -/
theorem ripGrep_exit_code_convention :
    (∀ se : String, ripGrepHandle (.exitErr 1 se) = .ok "No matches found.") ∧
    (∀ (c : Nat) (se : String), c ≠ 0 → c ≠ 1 → se ≠ "" →
      ripGrepHandle (.exitErr c se) =
        .error ("ripgrep failed with exit code " ++ toString c ++ ": " ++ se)) ∧
    (∀ c : Nat, c ≠ 0 → c ≠ 1 →
      ripGrepHandle (.exitErr c "") =
        .error ("ripgrep failed with exit code " ++ toString c)) := by
  refine ⟨fun se => by simp [ripGrepHandle],
    fun c se h0 h1 hse => by simp [ripGrepHandle, h1, hse],
    fun c h0 h1 => by simp [ripGrepHandle, h1]⟩

theorem ripGrep_exit_code_convention_witness :
    ripGrepHandle (.exitErr 2 "boom") =
      .error ("ripgrep failed with exit code " ++ toString 2 ++ ": " ++ "boom") :=
  ripGrep_exit_code_convention.2.1 2 "boom" (by decide) (by decide) (by decide)

/-! ### Dispatch theorems -/

theorem executeTool_id (tools : List ToolDefinition) (id name : String)
    (input : Raw) : (executeTool tools id name input).id = id := by
  unfold executeTool
  split
  · rfl
  · split <;> rfl

/-- C5: for a tool name absent from the registry, dispatch returns a
failed tool-result block reading "tool not found", and the turn loop is
not aborted: whenever inference succeeds, the inference phase yields a
continuation state, never an error, whatever tool results were
produced. -/
theorem unknown_tool_dispatch (tools : List ToolDefinition) (id name : String)
    (input : Raw) (h : ∀ t ∈ tools, t.name ≠ name) :
    executeTool tools id name input = ⟨id, "tool not found", true⟩ ∧
    (∀ (infer : List Message → Except String (List ContentBlock))
        (conv : List Message) (blocks : List ContentBlock),
      infer conv = .ok blocks →
      ∃ st, stepInference tools infer conv = .ok st) := by
  have hfind : tools.find? (fun t => t.name == name) = none := by
    rw [List.find?_eq_none]
    intro t ht
    simp [h t ht]
  refine ⟨by simp [executeTool, hfind], fun infer conv blocks hinf => ?_⟩
  by_cases hres : (collectToolResults tools blocks).isEmpty
  · exact ⟨(conv ++ [Message.assistant blocks], true),
      by simp [stepInference, hinf, hres]⟩
  · exact ⟨(conv ++ [Message.assistant blocks,
        Message.user ((collectToolResults tools blocks).map UserBlock.toolResult)],
        false),
      by simp [stepInference, hinf, hres]⟩

theorem unknown_tool_dispatch_witness :
    executeTool [] "id1" "nope" "\x7b\x7d" =
      ⟨"id1", "tool not found", true⟩ :=
  (unknown_tool_dispatch [] "id1" "nope" "\x7b\x7d" (by simp)).1

/-- C6: for a registered tool of the decode-then-body shape shared by
all four tools, a decode failure produces a failed result carrying the
tool's descriptive message without the body being run (the result is
the same for every body), a body failure is converted to a failed
textual result, a body success to a non-failed one, and dispatch always
returns a result block bound to the call id (it never aborts). -/
theorem dispatch_decode_and_failure_conversion (I : Type)
    (tools : List ToolDefinition) (id name msg : String)
    (dec : Raw → Except String I) (body : I → Except String String)
    (td : ToolDefinition) (raw : Raw)
    (hfind : tools.find? (fun t => t.name == name) = some td)
    (hfn : td.fn = mkToolFn msg dec body) :
    (∀ e, dec raw = .error e →
      executeTool tools id name raw = ⟨id, msg ++ e, true⟩) ∧
    (∀ i e, dec raw = .ok i → body i = .error e →
      executeTool tools id name raw = ⟨id, e, true⟩) ∧
    (∀ i r, dec raw = .ok i → body i = .ok r →
      executeTool tools id name raw = ⟨id, r, false⟩) ∧
    (executeTool tools id name raw).id = id := by
  refine ⟨fun e he => ?_, fun i e hi he => ?_, fun i r hi hr => ?_,
    executeTool_id tools id name raw⟩
  · simp [executeTool, hfind, hfn, mkToolFn, he]
  · simp [executeTool, hfind, hfn, mkToolFn, hi, he]
  · simp [executeTool, hfind, hfn, mkToolFn, hi, hr]

/-- Decoder used to exercise the dispatch theorems on concrete data. -/
def demoDec : Raw → Except String ReadFileInput :=
  fun r => if r = "ok" then .ok ⟨"f.txt"⟩ else .error "bad json"

/-- Tiny file system used to exercise the dispatch theorems. -/
def demoFS : FS := [("f.txt", ['h', 'i'])]

/-- A concrete read_file registration over `demoDec` and `demoFS`. -/
def demoReadTool : ToolDefinition :=
  ⟨"read_file",
    "Read the contents of a given relative file path.",
    ReadFileFn demoDec demoFS⟩

theorem dispatch_decode_and_failure_conversion_witness :
    executeTool [demoReadTool] "id1" "read_file" "nope" =
      ⟨"id1", "invalid input format for read_file: " ++ "bad json", true⟩ :=
  (dispatch_decode_and_failure_conversion ReadFileInput [demoReadTool] "id1"
    "read_file" "invalid input format for read_file: " demoDec
    (fun i =>
      match FS.read demoFS i.path with
      | none => .error ("failed to read file '" ++ i.path ++ "'")
      | some c => .ok (String.mk c))
    demoReadTool "nope" (by rfl) rfl).1 "bad json" (by rfl)

/-! ### Turn-loop theorems -/

theorem collectToolResults_eq_map (tools : List ToolDefinition)
    (blocks : List ContentBlock) :
    collectToolResults tools blocks =
      (toolUses blocks).map fun u => executeTool tools u.1 u.2.1 u.2.2 := by
  induction blocks with
  | nil => rfl
  | cons b bs ih =>
    cases b with
    | text s =>
      simpa [collectToolResults, toolUses, List.filterMap_cons] using ih
    | toolUse id name input =>
      simpa [collectToolResults, toolUses, List.filterMap_cons] using ih

theorem stepInference_append (tools : List ToolDefinition)
    (infer : List Message → Except String (List ContentBlock))
    (conv c : List Message) (flag : Bool)
    (h : stepInference tools infer conv = .ok (c, flag)) :
    ∃ tail, c = conv ++ tail := by
  unfold stepInference at h
  cases hinf : infer conv with
  | error e => rw [hinf] at h; simp at h
  | ok blocks =>
    rw [hinf] at h
    dsimp only at h
    split at h
    · injection h with h'
      exact ⟨_, (congrArg Prod.fst h').symm⟩
    · injection h with h'
      exact ⟨_, (congrArg Prod.fst h').symm.trans (List.append_assoc _ _ _)⟩

theorem run_append_only (tools : List ToolDefinition)
    (infer : List Message → Except String (List ContentBlock)) :
    ∀ (fuel : Nat) (inputs : List String) (conv : List Message) (flag : Bool)
      (fin : List Message),
      run tools infer fuel inputs conv flag = some (.ok fin) →
      ∃ tail, fin = conv ++ tail := by
  intro fuel
  induction fuel with
  | zero => intro inputs conv flag fin h; exact absurd h (by simp [run])
  | succ fuel ih =>
    intro inputs conv flag fin h
    cases flag with
    | true =>
      cases inputs with
      | nil =>
        simp only [run] at h
        simp at h
        exact ⟨[], by simp [h]⟩
      | cons input rest =>
        simp only [run] at h
        cases hstep : stepInference tools infer
            (conv ++ [Message.user [UserBlock.text input]]) with
        | error e => rw [hstep] at h; simp at h
        | ok st =>
          rw [hstep] at h
          simp only at h
          obtain ⟨t2, ht2⟩ := ih rest st.1 st.2 fin h
          obtain ⟨t1, ht1⟩ :=
            stepInference_append tools infer _ st.1 st.2 (by rw [hstep])
          exact ⟨[Message.user [UserBlock.text input]] ++ t1 ++ t2, by
            rw [ht2, ht1]; simp⟩
    | false =>
      simp only [run] at h
      cases hstep : stepInference tools infer conv with
      | error e => rw [hstep] at h; simp at h
      | ok st =>
        rw [hstep] at h
        simp only at h
        obtain ⟨t2, ht2⟩ := ih inputs st.1 st.2 fin h
        obtain ⟨t1, ht1⟩ :=
          stepInference_append tools infer conv st.1 st.2 (by rw [hstep])
        exact ⟨t1 ++ t2, by rw [ht2, ht1]; simp⟩

/-- C1: when the model response contains at least one tool-use block,
the inference phase dispatches each tool-use block in order of
appearance, collects exactly one result per block (each bound to its
call id), appends them as exactly one new user-role message right after
the assistant message (the conversation is only appended to), and hands
back a state whose next iteration runs inference immediately without
consuming any user input; moreover a completed run only ever extends
the conversation it started from. -/
theorem turn_loop_tool_results (tools : List ToolDefinition)
    (infer : List Message → Except String (List ContentBlock))
    (conv : List Message) (blocks : List ContentBlock)
    (hinfer : infer conv = .ok blocks)
    (hN : toolUses blocks ≠ []) :
    stepInference tools infer conv =
      .ok (conv ++ [Message.assistant blocks,
        Message.user ((toolUses blocks).map fun u =>
          UserBlock.toolResult (executeTool tools u.1 u.2.1 u.2.2))], false) ∧
    ((toolUses blocks).map fun u => (executeTool tools u.1 u.2.1 u.2.2).id) =
      ((toolUses blocks).map fun u => u.1) ∧
    (∀ (fuel : Nat) (inputs : List String) (c : List Message),
      run tools infer (fuel + 1) inputs c false =
        match stepInference tools infer c with
        | .error e => some (.error e)
        | .ok (c', flag) => run tools infer fuel inputs c' flag) ∧
    (∀ (fuel : Nat) (inputs : List String) (c : List Message) (flag : Bool)
        (fin : List Message),
      run tools infer fuel inputs c flag = some (.ok fin) →
      ∃ tail, fin = c ++ tail) := by
  have hcol := collectToolResults_eq_map tools blocks
  have hne : ¬ (collectToolResults tools blocks).isEmpty := by
    rw [hcol]
    simp [List.isEmpty_iff, hN]
  refine ⟨?_, ?_, ?_, run_append_only tools infer⟩
  · simp only [stepInference, hinfer, hcol, List.map_map]
    simp [Function.comp, hN]
  · exact List.map_congr_left fun u _ => executeTool_id tools u.1 u.2.1 u.2.2
  · intro fuel inputs c
    rfl

theorem turn_loop_tool_results_witness :
    stepInference []
        (fun _ => .ok [ContentBlock.toolUse "id1" "nope" "x"]) [] =
      .ok ([] ++ [Message.assistant [ContentBlock.toolUse "id1" "nope" "x"],
        Message.user ((toolUses [ContentBlock.toolUse "id1" "nope" "x"]).map
          fun u => UserBlock.toolResult (executeTool [] u.1 u.2.1 u.2.2))],
        false) :=
  (turn_loop_tool_results []
    (fun _ => .ok [ContentBlock.toolUse "id1" "nope" "x"]) []
    [ContentBlock.toolUse "id1" "nope" "x"] rfl (by decide)).1

/-- C8: end-of-input while awaiting user input breaks the loop and the
run returns without error, whatever conversation was accumulated. -/
theorem run_end_of_input (tools : List ToolDefinition)
    (infer : List Message → Except String (List ContentBlock))
    (fuel : Nat) (conv : List Message) :
    run tools infer (fuel + 1) [] conv true = some (.ok conv) := rfl

/-! ### ListFiles theorems -/

mutual

theorem walkTree_eq_reach : ∀ (pre : String) (t : FTree),
    walkTree pre t = (reachTree pre t).map markEntry
  | pre, .file n => by
    simp [walkTree, reachTree, markEntry]
  | pre, .dir n cs => by
    rw [walkTree, reachTree,
      walkList_eq_reach (pre ++ n ++ "/") (sortByName cs)]
    simp [markEntry]
termination_by pre t => sizeOf t
decreasing_by simp [sizeOf_sortByName] <;> omega

theorem walkList_eq_reach : ∀ (pre : String) (ts : List FTree),
    walkList pre ts = (reachList pre ts).map markEntry
  | pre, [] => by
    simp [walkList, reachList]
  | pre, t :: ts => by
    rw [walkList, reachList, walkTree_eq_reach pre t,
      walkList_eq_reach pre ts]
    simp
termination_by pre ts => sizeOf ts
decreasing_by all_goals simp <;> omega

end

/-- C7: `list_files` on a directory returns exactly the recursively
reachable entries under it, each named by its path relative to the
given directory, with `"/"` appended to every directory entry and to
no file entry; in particular a directory holding file `a.txt` and
subdirectory `sub` containing `b.txt` yields `a.txt`, `sub/` and
`sub/b.txt`. -/
theorem listFiles_relative_entries :
    (∀ (name : String) (cs : List FTree),
      listFiles (.dir name cs) = (reachList "" (sortByName cs)).map markEntry) ∧
    (∀ (pre : String) (t : FTree),
      walkTree pre t = (reachTree pre t).map markEntry) ∧
    listFiles (.dir "root" [.file "a.txt", .dir "sub" [.file "b.txt"]]) =
      ["a.txt", "sub/", "sub/b.txt"] := by
  refine ⟨fun name cs => ?_, walkTree_eq_reach, ?_⟩
  · simp [listFiles, walkList_eq_reach]
  · have hlt : ¬ ("sub" : String) < "a.txt" := by
      simp only [String.lt_iff_toList_lt]
      decide
    simp [listFiles, sortByName, insertByName, walkList, walkTree,
      FTree.name, hlt]

end Agent
